import Mathlib

/-
Verification of the move-tree core of `src/main.py` (lichess-study-visualiser).

The embedded fragment consists of:
  * class `MoveNode` (src/main.py lines 20-43): a tree node holding a board
    state, the incoming move, a back-reference to the parent, and a dict of
    children keyed by the move's UCI string;
  * `MoveNode.add_child` (lines 32-43);
  * `_add_pgn_nodes_to_tree` / `build_tree_from_pgn` (lines 46-78), restricted
    to the ingestion of one flat move sequence at a time (each PGN line is an
    ordered list of moves; the builder walks a cursor from the root applying
    `add_child` for each move);
  * `find_first_divergence_node` (lines 81-97);
  * `prune_end_nodes` (lines 100-119).

Modelling decisions:
  * The board state is an opaque type `σ`; `board.copy()` followed by
    `board.push(move)` is an external deterministic evolution function
    `evolve : σ → String → σ` applied to the move's UCI key.  The node field
    `fen` of the source is `board.fen()`, a canonical string derived
    deterministically from the board; state identity (`state_id` / FEN) is
    therefore modelled by equality of the `board` component itself.
  * A Python dict is modelled by an association list with (by construction)
    pairwise distinct keys; insertion appends at the end, matching dict
    insertion order.  Lookup is key equality on the UCI string.
  * The `parent` back-reference cannot live inside a purely inductive tree;
    a node is addressed by the list of move keys leading to it from the root
    (its path), and its parent is the node addressed by the path minus its
    last key.  Theorems about parents are phrased through paths.
  * Mutation is modelled by returning the updated subtree; `prune_end_nodes`
    and the ingestion both return the new value of the node they were handed.
-/

inductive MoveNode (σ : Type) : Type where
  | mk : σ → Option String → List (String × MoveNode σ) → MoveNode σ

namespace MoveNode

variable {σ : Type}

/-- Field `self.board` (the opaque board state; also identifies `self.fen`). -/
def board : MoveNode σ → σ
  | .mk b _ _ => b

/-- Field `self.move` (the move that produced this node; `none` for the root). -/
def move : MoveNode σ → Option String
  | .mk _ m _ => m

/-- Field `self.children` (dict keyed by move UCI, as an association list). -/
def children : MoveNode σ → List (String × MoveNode σ)
  | .mk _ _ cs => cs

@[simp] theorem board_mk (b : σ) (m : Option String) (cs : List (String × MoveNode σ)) :
    (MoveNode.mk b m cs).board = b := rfl

@[simp] theorem move_mk (b : σ) (m : Option String) (cs : List (String × MoveNode σ)) :
    (MoveNode.mk b m cs).move = m := rfl

@[simp] theorem children_mk (b : σ) (m : Option String) (cs : List (String × MoveNode σ)) :
    (MoveNode.mk b m cs).children = cs := rfl

theorem eta (t : MoveNode σ) : MoveNode.mk t.board t.move t.children = t := by
  cases t; rfl

/-- Structural induction principle for the nested inductive: to prove `P t`
it suffices to prove it for `mk b m cs` assuming it for every child in `cs`. -/
def inductionOn {P : MoveNode σ → Prop}
    (step : ∀ b m cs, (∀ kc, kc ∈ cs → P kc.2) → P (MoveNode.mk b m cs)) :
    ∀ t, P t
  | .mk b m cs => step b m cs (fun kc _hkc => inductionOn step kc.2)
decreasing_by
  have h1 : sizeOf kc < sizeOf cs := List.sizeOf_lt_of_mem _hkc
  obtain ⟨k, c⟩ := kc
  simp at h1 ⊢
  omega

/-- Python dict lookup `node.children[uci]` / the test `uci in node.children`. -/
def findChild : List (String × MoveNode σ) → String → Option (MoveNode σ)
  | [], _ => none
  | (k, c) :: rest, u => if k = u then some c else findChild rest u

@[simp] theorem findChild_nil (u : String) : findChild ([] : List (String × MoveNode σ)) u = none := rfl

theorem findChild_cons (k : String) (c : MoveNode σ) (rest : List (String × MoveNode σ)) (u : String) :
    findChild ((k, c) :: rest) u = if k = u then some c else findChild rest u := rfl

/-- `MoveNode.add_child` (src/main.py lines 32-43), effect on the tree: if a
child for the move's UCI key already exists the node is unchanged; otherwise a
new child node is created from the evolved board state and inserted under the
key (dict insertion appends).  `evolve` is the external
`board.copy(); board.push(move)` capability. -/
def add_child (evolve : σ → String → σ) : MoveNode σ → String → MoveNode σ
  | .mk b m cs, u =>
    if (findChild cs u).isSome then .mk b m cs
    else .mk b m (cs ++ [(u, .mk (evolve b u) (some u) [])])

/-- The node returned by `MoveNode.add_child` (`return self.children[uci]`):
the child stored under the key after the insertion step. -/
def returned_child (evolve : σ → String → σ) (t : MoveNode σ) (u : String) :
    Option (MoveNode σ) :=
  findChild (add_child evolve t u).children u

/-- In-place mutation of the child object stored under key `u`: the association
list with the value at `u` replaced by `c'`. -/
def replaceChild : List (String × MoveNode σ) → String → MoveNode σ → List (String × MoveNode σ)
  | [], _, _ => []
  | (k, c) :: rest, u, c' =>
    if k = u then (k, c') :: replaceChild rest u c'
    else (k, c) :: replaceChild rest u c'

/-- Ingestion of one flat move sequence, the Tree Builder of the spec: the
cursor walk of `_add_pgn_nodes_to_tree` (src/main.py lines 46-56) specialised
to a single line of moves.  For each move: if the cursor's children already
contain the key, reuse that child and continue inside it; otherwise create a
new node from the evolved board (exactly `add_child`) and continue inside the
new node. -/
def ingest (evolve : σ → String → σ) : MoveNode σ → List String → MoveNode σ
  | t, [] => t
  | .mk b m cs, u :: rest =>
    match findChild cs u with
    | some c => .mk b m (replaceChild cs u (ingest evolve c rest))
    | none => .mk b m (cs ++ [(u, ingest evolve (.mk (evolve b u) (some u) []) rest)])

/-- `build_tree_from_pgn` (src/main.py lines 59-78): a fresh root is created
for the initial position `init` and every game's move sequence is merged into
the same tree, one sequence at a time. -/
def build_tree (evolve : σ → String → σ) (init : σ) (seqs : List (List String)) : MoveNode σ :=
  seqs.foldl (ingest evolve) (.mk init none [])

/-- `find_first_divergence_node` (src/main.py lines 81-97): while the current
node has exactly one child, step to that only child; return the first node
with 0 or ≥ 2 children. -/
def find_first_divergence_node : MoveNode σ → MoveNode σ
  | .mk _ _ [(_, c)] => find_first_divergence_node c
  | .mk b m cs => .mk b m cs

mutual
/-- `prune_end_nodes` (src/main.py lines 100-119): recursively prune every
child first (post-order), then, if the node has exactly one child and that
child has become a leaf, clear the node's children dict. -/
def prune_end_nodes : MoveNode σ → MoveNode σ
  | .mk b m cs =>
    match prune_forest cs with
    | [(k, c)] => if c.children.isEmpty then .mk b m [] else .mk b m [(k, c)]
    | cs' => .mk b m cs'

/-- The recursion of `prune_end_nodes` over the snapshot
`children_to_process = list(node.children.values())`: every child subtree is
pruned in place, keys are untouched. -/
def prune_forest : List (String × MoveNode σ) → List (String × MoveNode σ)
  | [] => []
  | (k, c) :: rest => (k, prune_end_nodes c) :: prune_forest rest
end

/-- The node addressed by a path of move keys from `t` (`t` itself for `[]`);
`none` when some key on the path is absent.  This is the path-based addressing
that replaces Python object identity and the `parent` back-reference. -/
def subtreeAt : MoveNode σ → List String → Option (MoveNode σ)
  | t, [] => some t
  | t, u :: p =>
    match findChild t.children u with
    | some c => subtreeAt c p
    | none => none

mutual
/-- All node addresses of the tree: the empty path (the node itself) together
with every child key followed by an address inside that child. -/
def treePaths : MoveNode σ → List (List String)
  | .mk _ _ cs => [] :: forestPaths cs

def forestPaths : List (String × MoveNode σ) → List (List String)
  | [] => []
  | (k, c) :: rest => (treePaths c).map (fun p => k :: p) ++ forestPaths rest
end

mutual
/-- Number of nodes of the tree (the node itself plus all descendants). -/
def countNodes : MoveNode σ → Nat
  | .mk _ _ cs => 1 + countForest cs

def countForest : List (String × MoveNode σ) → Nat
  | [] => 0
  | (_, c) :: rest => countNodes c + countForest rest
end

mutual
/-- Well-formedness enforced by construction in the source: within every node
the dict keys are pairwise distinct, and every child's `move` field equals the
key it is stored under (`self.children[uci] = MoveNode(..., move, self)` with
`uci = move.uci()`). -/
def wf : MoveNode σ → Bool
  | .mk _ _ cs => decide ((cs.map Prod.fst).Nodup) && wfForest cs

def wfForest : List (String × MoveNode σ) → Bool
  | [] => true
  | (k, c) :: rest => decide (c.move = some k) && wf c && wfForest rest
end

/-- The tree is a single unbranched chain: every node has 0 or 1 children. -/
def isChain : MoveNode σ → Bool
  | .mk _ _ [] => true
  | .mk _ _ [(_, c)] => isChain c
  | .mk _ _ _ => false

/-- The path walked by `find_first_divergence_node`: the keys of the sole
children, as long as the current node has exactly one child. -/
def chainPath : MoveNode σ → List String
  | .mk _ _ [(k, c)] => k :: chainPath c
  | .mk _ _ _ => []

/-- The local removal condition of `prune_end_nodes`: exactly one child and
that child is a leaf. -/
def tailClearable : MoveNode σ → Bool
  | .mk _ _ [(_, c)] => c.children.isEmpty
  | .mk _ _ _ => false

mutual
/-- No node anywhere in the tree satisfies the removal condition of
`prune_end_nodes` (the normal form reached after pruning). -/
def fullyPruned : MoveNode σ → Bool
  | .mk b m cs => !tailClearable (.mk b m cs) && fullyPrunedForest cs

def fullyPrunedForest : List (String × MoveNode σ) → Bool
  | [] => true
  | (_, c) :: rest => fullyPruned c && fullyPrunedForest rest
end

/-- The board state reached by replaying a move path from the initial state:
determinism of the external board-evolution capability. -/
def pathState (evolve : σ → String → σ) (init : σ) (p : List String) : σ :=
  p.foldl evolve init

end MoveNode

/-- The distinct move-path prefixes contributed by a collection of ingested
sequences, the root counting as the empty prefix. -/
def distinctPrefixes (seqs : List (List String)) : List (List String) :=
  ([[]] ++ seqs.flatMap (fun s => s.inits)).dedup

namespace MoveNode

variable {σ : Type}

theorem prune_forest_eq_map (cs : List (String × MoveNode σ)) :
    prune_forest cs = cs.map (fun kc => (kc.1, prune_end_nodes kc.2)) := by
  induction cs with
  | nil => simp [prune_forest]
  | cons kc rest ih => obtain ⟨k, c⟩ := kc; simp [prune_forest, ih]

/-- Closed-form description of one unfolding of `prune_end_nodes`: prune all
children, then clear the dict exactly when the removal condition holds of the
node with pruned children. -/
theorem prune_mk (b : σ) (m : Option String) (cs : List (String × MoveNode σ)) :
    prune_end_nodes (MoveNode.mk b m cs) =
      if tailClearable (MoveNode.mk b m (prune_forest cs)) = true
      then MoveNode.mk b m []
      else MoveNode.mk b m (prune_forest cs) := by
  rcases cs with _ | ⟨⟨k, c⟩, rest⟩
  · simp [prune_end_nodes, prune_forest, tailClearable]
  · rcases rest with _ | ⟨⟨k', c'⟩, rest'⟩
    · simp only [prune_end_nodes, prune_forest, tailClearable]
    · simp [prune_end_nodes, prune_forest, tailClearable]

theorem tailClearable_mk_nil (b : σ) (m : Option String) :
    tailClearable (MoveNode.mk b m []) = false := rfl

theorem tailClearable_mk_singleton (b : σ) (m : Option String) (k : String) (c : MoveNode σ) :
    tailClearable (MoveNode.mk b m [(k, c)]) = c.children.isEmpty := rfl

theorem tailClearable_mk_of_length_ne_one (b : σ) (m : Option String)
    (cs : List (String × MoveNode σ)) (h : cs.length ≠ 1) :
    tailClearable (MoveNode.mk b m cs) = false := by
  rcases cs with _ | ⟨⟨k, c⟩, _ | ⟨⟨k', c'⟩, rest'⟩⟩
  · rfl
  · simp at h
  · rfl

theorem prune_mk_singleton_clear (b : σ) (m : Option String) (k : String) (c : MoveNode σ)
    (h : (prune_end_nodes c).children = []) :
    prune_end_nodes (MoveNode.mk b m [(k, c)]) = MoveNode.mk b m [] := by
  rw [prune_mk]
  simp [prune_forest, tailClearable_mk_singleton, h]

theorem prune_mk_singleton_keep (b : σ) (m : Option String) (k : String) (c : MoveNode σ)
    (h : (prune_end_nodes c).children ≠ []) :
    prune_end_nodes (MoveNode.mk b m [(k, c)]) = MoveNode.mk b m [(k, prune_end_nodes c)] := by
  rw [prune_mk]
  simp [prune_forest, tailClearable_mk_singleton, h]

theorem prune_mk_of_length_ne_one (b : σ) (m : Option String)
    (cs : List (String × MoveNode σ)) (h : cs.length ≠ 1) :
    prune_end_nodes (MoveNode.mk b m cs) = MoveNode.mk b m (prune_forest cs) := by
  rw [prune_mk, tailClearable_mk_of_length_ne_one]
  · simp
  · rw [prune_forest_eq_map, List.length_map]; exact h

theorem prune_board (t : MoveNode σ) : (prune_end_nodes t).board = t.board := by
  rcases t with ⟨b, m, cs⟩
  rw [prune_mk]
  split <;> simp

theorem prune_move (t : MoveNode σ) : (prune_end_nodes t).move = t.move := by
  rcases t with ⟨b, m, cs⟩
  rw [prune_mk]
  split <;> simp

theorem fullyPrunedForest_iff (cs : List (String × MoveNode σ)) :
    fullyPrunedForest cs = true ↔ ∀ kc ∈ cs, fullyPruned kc.2 = true := by
  induction cs with
  | nil => simp [fullyPrunedForest]
  | cons kc rest ih =>
    obtain ⟨k, c⟩ := kc
    simp [fullyPrunedForest, ih, Bool.and_eq_true]

theorem fullyPruned_mk_iff (b : σ) (m : Option String) (cs : List (String × MoveNode σ)) :
    fullyPruned (MoveNode.mk b m cs) = true ↔
      tailClearable (MoveNode.mk b m cs) = false ∧ ∀ kc ∈ cs, fullyPruned kc.2 = true := by
  simp [fullyPruned, Bool.and_eq_true, fullyPrunedForest_iff]

theorem prune_forest_eq_self (cs : List (String × MoveNode σ))
    (h : ∀ kc ∈ cs, prune_end_nodes kc.2 = kc.2) : prune_forest cs = cs := by
  induction cs with
  | nil => simp [prune_forest]
  | cons kc rest ih =>
    obtain ⟨k, c⟩ := kc
    simp only [prune_forest]
    rw [h (k, c) (by simp), ih (fun kc hkc => h kc (by simp [hkc]))]

theorem fullyPruned_prune (t : MoveNode σ) : fullyPruned (prune_end_nodes t) = true := by
  induction t using inductionOn with
  | step b m cs ih =>
    rw [prune_mk]
    split
    · simp [fullyPruned, tailClearable, fullyPrunedForest]
    · rename_i hcond
      rw [fullyPruned_mk_iff]
      refine ⟨by simpa using hcond, ?_⟩
      intro kc hkc
      rw [prune_forest_eq_map] at hkc
      obtain ⟨kc₀, hkc₀, rfl⟩ := List.mem_map.mp hkc
      exact ih kc₀ hkc₀

theorem prune_eq_self_of_fullyPruned (t : MoveNode σ) (h : fullyPruned t = true) :
    prune_end_nodes t = t := by
  induction t using inductionOn with
  | step b m cs ih =>
    rw [fullyPruned_mk_iff] at h
    obtain ⟨hclear, hchild⟩ := h
    have hforest : prune_forest cs = cs :=
      prune_forest_eq_self cs (fun kc hkc => ih kc hkc (hchild kc hkc))
    rw [prune_mk, hforest, hclear]
    simp

/-- C5: `prune_end_nodes` is idempotent: pruning an already-pruned tree is a
no-op, because after one pass no remaining node has exactly one child that is
a leaf (`fullyPruned`), and on such trees the pass is the identity. -/
theorem claim_C5_prune_idempotent (t : MoveNode σ) :
    prune_end_nodes (prune_end_nodes t) = prune_end_nodes t ∧
      fullyPruned (prune_end_nodes t) = true :=
  ⟨prune_eq_self_of_fullyPruned _ (fullyPruned_prune t), fullyPruned_prune t⟩

/-- C1: the local rule of `prune_end_nodes` at a node: children are pruned
first (post-order), and the node's children dict is cleared if and only if the
node has exactly one child and that child, after its own recursive pruning,
has zero children.  A node whose child count differs from 1 (in particular
with two or more children) keeps all its (recursively pruned) children. -/
theorem claim_C1_prune_local_rule {σ : Type} :
    (∀ (b : σ) (m : Option String) (k : String) (c : MoveNode σ),
        (prune_end_nodes c).children = [] →
        prune_end_nodes (MoveNode.mk b m [(k, c)]) = MoveNode.mk b m [])
  ∧ (∀ (b : σ) (m : Option String) (k : String) (c : MoveNode σ),
        (prune_end_nodes c).children ≠ [] →
        prune_end_nodes (MoveNode.mk b m [(k, c)]) = MoveNode.mk b m [(k, prune_end_nodes c)])
  ∧ (∀ (b : σ) (m : Option String) (cs : List (String × MoveNode σ)),
        cs.length ≠ 1 →
        prune_end_nodes (MoveNode.mk b m cs)
          = MoveNode.mk b m (cs.map (fun kc => (kc.1, prune_end_nodes kc.2)))) :=
  ⟨fun b m k c h => prune_mk_singleton_clear b m k c h,
   fun b m k c h => prune_mk_singleton_keep b m k c h,
   fun b m cs h => by rw [prune_mk_of_length_ne_one b m cs h, prune_forest_eq_map]⟩

/-- Witness for C1 at a concrete input: a two-node chain is cleared at the
root because its sole child prunes to a leaf; a two-child node keeps both
children. -/
theorem claim_C1_witness :
    ((prune_end_nodes (MoveNode.mk 1 (some "a") ([] : List (String × MoveNode Nat)))).children = []
      ∧ prune_end_nodes (MoveNode.mk 0 none [("a", MoveNode.mk 1 (some "a") [])])
          = (MoveNode.mk 0 none [] : MoveNode Nat))
  ∧ (([("b", MoveNode.mk 2 (some "b") []), ("c", MoveNode.mk 3 (some "c") [])] :
        List (String × MoveNode Nat)).length ≠ 1
      ∧ prune_end_nodes (MoveNode.mk 0 none
            [("b", MoveNode.mk 2 (some "b") []), ("c", MoveNode.mk 3 (some "c") [])])
          = (MoveNode.mk 0 none
            [("b", MoveNode.mk 2 (some "b") []), ("c", MoveNode.mk 3 (some "c") [])] : MoveNode Nat)) :=
  ⟨⟨rfl, claim_C1_prune_local_rule.1 0 none "a" (MoveNode.mk 1 (some "a") []) rfl⟩,
   ⟨by decide, claim_C1_prune_local_rule.2.2 0 none
      [("b", MoveNode.mk 2 (some "b") []), ("c", MoveNode.mk 3 (some "c") [])] (by decide)⟩⟩

theorem chainPath_mk_nil (b : σ) (m : Option String) :
    chainPath (MoveNode.mk b m []) = [] := rfl

theorem chainPath_mk_singleton (b : σ) (m : Option String) (k : String) (c : MoveNode σ) :
    chainPath (MoveNode.mk b m [(k, c)]) = k :: chainPath c := rfl

theorem fdn_mk_nil (b : σ) (m : Option String) :
    find_first_divergence_node (MoveNode.mk b m []) = MoveNode.mk b m [] := rfl

theorem fdn_mk_singleton (b : σ) (m : Option String) (k : String) (c : MoveNode σ) :
    find_first_divergence_node (MoveNode.mk b m [(k, c)]) = find_first_divergence_node c := by
  simp [find_first_divergence_node]

theorem subtreeAt_cons (t : MoveNode σ) (u : String) (p : List String) :
    subtreeAt t (u :: p) =
      match findChild t.children u with
      | some c => subtreeAt c p
      | none => none := rfl

@[simp] theorem subtreeAt_nil (t : MoveNode σ) : subtreeAt t [] = some t := rfl

theorem subtreeAt_mk_singleton_cons (b : σ) (m : Option String) (k : String) (c : MoveNode σ)
    (p : List String) :
    subtreeAt (MoveNode.mk b m [(k, c)]) (k :: p) = subtreeAt c p := by
  rw [subtreeAt_cons]
  simp [findChild]

theorem subtreeAt_chainPath (t : MoveNode σ) :
    subtreeAt t (chainPath t) = some (find_first_divergence_node t) := by
  induction t using inductionOn with
  | step b m cs ih =>
    rcases cs with _ | ⟨⟨k, c⟩, _ | ⟨⟨k₂, c₂⟩, rest⟩⟩
    · rfl
    · rw [chainPath_mk_singleton, fdn_mk_singleton, subtreeAt_mk_singleton_cons]
      exact ih (k, c) (by simp)
    · rfl

theorem fdn_children_length_ne_one (t : MoveNode σ) :
    (find_first_divergence_node t).children.length ≠ 1 := by
  induction t using inductionOn with
  | step b m cs ih =>
    rcases cs with _ | ⟨⟨k, c⟩, _ | ⟨⟨k₂, c₂⟩, rest⟩⟩
    · simp [fdn_mk_nil]
    · rw [fdn_mk_singleton]
      exact ih (k, c) (by simp)
    · show ((MoveNode.mk b m _).children.length ≠ 1)
      simp

theorem chainPath_proper_prefix_single_child (t : MoveNode σ) :
    ∀ p : List String, p <+: chainPath t → p ≠ chainPath t →
      ∃ s, subtreeAt t p = some s ∧ s.children.length = 1 := by
  induction t using inductionOn with
  | step b m cs ih =>
    intro p hpre hne
    rcases cs with _ | ⟨⟨k, c⟩, _ | ⟨⟨k₂, c₂⟩, rest⟩⟩
    · rw [chainPath_mk_nil] at hpre hne
      exact absurd (List.prefix_nil.mp hpre) hne
    · rw [chainPath_mk_singleton] at hpre hne
      rcases p with _ | ⟨u, q⟩
      · exact ⟨MoveNode.mk b m [(k, c)], rfl, by simp⟩
      · obtain ⟨heq, hq⟩ := List.cons_prefix_cons.mp hpre
        rw [heq, subtreeAt_mk_singleton_cons]
        exact ih (k, c) (by simp) q hq (fun h2 => hne (by rw [heq, h2]))
    · rw [show chainPath (MoveNode.mk b m ((k, c) :: (k₂, c₂) :: rest)) = [] from rfl]
        at hpre hne
      exact absurd (List.prefix_nil.mp hpre) hne

theorem fdn_eq_self_of_length_ne_one (t : MoveNode σ) (h : t.children.length ≠ 1) :
    find_first_divergence_node t = t := by
  rcases t with ⟨b, m, _ | ⟨⟨k, c⟩, _ | ⟨⟨k₂, c₂⟩, rest⟩⟩⟩
  · rfl
  · simp at h
  · rfl

theorem fdn_children_nil_of_isChain (t : MoveNode σ) (h : isChain t = true) :
    (find_first_divergence_node t).children = [] := by
  induction t using inductionOn with
  | step b m cs ih =>
    rcases cs with _ | ⟨⟨k, c⟩, _ | ⟨⟨k₂, c₂⟩, rest⟩⟩
    · rfl
    · rw [fdn_mk_singleton]
      exact ih (k, c) (by simp) (by simpa [isChain] using h)
    · simp [isChain] at h

/-- C2: `find_first_divergence_node` walks the unique single-child chain from
the root: it returns the node addressed by the walked path (`chainPath`), that
node has 0 or ≥ 2 children, every node strictly before it on the path has
exactly one child, a root with 0 or ≥ 2 children is returned unchanged, and on
a fully unbranched tree the terminal leaf (0 children) is returned. -/
theorem claim_C2_find_divergence {σ : Type} :
    (∀ t : MoveNode σ, subtreeAt t (chainPath t) = some (find_first_divergence_node t))
  ∧ (∀ t : MoveNode σ, (find_first_divergence_node t).children.length ≠ 1)
  ∧ (∀ (t : MoveNode σ) (p : List String), p <+: chainPath t → p ≠ chainPath t →
        ∃ s, subtreeAt t p = some s ∧ s.children.length = 1)
  ∧ (∀ t : MoveNode σ, t.children.length ≠ 1 → find_first_divergence_node t = t)
  ∧ (∀ t : MoveNode σ, isChain t = true → (find_first_divergence_node t).children = []) :=
  ⟨subtreeAt_chainPath, fdn_children_length_ne_one,
   fun t => chainPath_proper_prefix_single_child t,
   fdn_eq_self_of_length_ne_one, fdn_children_nil_of_isChain⟩

/-- Witness for C2 at concrete inputs: a chain of two moves followed by a
two-way branch is walked down to the branching node; a root that already
branches is returned unchanged; a pure chain yields its terminal leaf. -/
theorem claim_C2_witness :
    subtreeAt
        (MoveNode.mk 0 none [("e4", MoveNode.mk 1 (some "e4")
          [("e5", MoveNode.mk 2 (some "e5")
            [("Nf3", MoveNode.mk 3 (some "Nf3") []), ("Nc3", MoveNode.mk 4 (some "Nc3") [])])])])
        (chainPath (MoveNode.mk 0 none [("e4", MoveNode.mk 1 (some "e4")
          [("e5", MoveNode.mk 2 (some "e5")
            [("Nf3", MoveNode.mk 3 (some "Nf3") []), ("Nc3", MoveNode.mk 4 (some "Nc3") [])])])]))
      = some (find_first_divergence_node
          (MoveNode.mk 0 none [("e4", MoveNode.mk 1 (some "e4")
            [("e5", MoveNode.mk 2 (some "e5")
              [("Nf3", MoveNode.mk 3 (some "Nf3") []), ("Nc3", MoveNode.mk 4 (some "Nc3") [])])])] :
            MoveNode Nat))
  ∧ ((MoveNode.mk 0 none [("a", MoveNode.mk 1 (some "a") []), ("b", MoveNode.mk 2 (some "b") [])] :
        MoveNode Nat).children.length ≠ 1
      ∧ find_first_divergence_node
          (MoveNode.mk 0 none [("a", MoveNode.mk 1 (some "a") []), ("b", MoveNode.mk 2 (some "b") [])])
        = (MoveNode.mk 0 none [("a", MoveNode.mk 1 (some "a") []), ("b", MoveNode.mk 2 (some "b") [])] :
            MoveNode Nat))
  ∧ (isChain (MoveNode.mk 0 none [("a", MoveNode.mk 1 (some "a") [])] : MoveNode Nat) = true
      ∧ (find_first_divergence_node
          (MoveNode.mk 0 none [("a", MoveNode.mk 1 (some "a") [])] : MoveNode Nat)).children = []) :=
  ⟨claim_C2_find_divergence.1 _,
   ⟨by decide, claim_C2_find_divergence.2.2.2.1 _ (by decide)⟩,
   ⟨rfl, claim_C2_find_divergence.2.2.2.2 _ rfl⟩⟩

theorem findChild_mem {cs : List (String × MoveNode σ)} {u : String} {c : MoveNode σ}
    (h : findChild cs u = some c) : (u, c) ∈ cs := by
  induction cs with
  | nil => simp at h
  | cons kc rest ih =>
    obtain ⟨k, c₀⟩ := kc
    rw [findChild_cons] at h
    by_cases hk : k = u
    · simp [hk] at h
      simp [hk, h]
    · simp [hk] at h
      simp [ih h]

theorem findChild_prune_forest (cs : List (String × MoveNode σ)) (u : String) :
    findChild (prune_forest cs) u = (findChild cs u).map prune_end_nodes := by
  induction cs with
  | nil => simp [prune_forest]
  | cons kc rest ih =>
    obtain ⟨k, c⟩ := kc
    simp only [prune_forest, findChild_cons]
    by_cases hk : k = u <;> simp [hk, ih]

theorem subtreeAt_prune (p : List String) :
    ∀ (t s : MoveNode σ), subtreeAt t p = some s →
      subtreeAt (prune_end_nodes t) p = none ∨
        subtreeAt (prune_end_nodes t) p = some (prune_end_nodes s) := by
  induction p with
  | nil =>
    intro t s h
    simp at h
    subst h
    right; rfl
  | cons u q ih =>
    intro t s h
    rcases t with ⟨b, m, cs⟩
    rw [subtreeAt_cons] at h
    rcases hfc : findChild (MoveNode.mk b m cs).children u with _ | c
    · rw [hfc] at h; simp at h
    · rw [hfc] at h
      rw [prune_mk]
      split
      · left
        rw [subtreeAt_cons]
        simp
      · rw [subtreeAt_cons]
        simp only [children_mk] at hfc ⊢
        rw [findChild_prune_forest, hfc]
        exact ih c s h

theorem subtreeAt_prune_inv (p : List String) :
    ∀ (t : MoveNode σ) (s' : MoveNode σ), subtreeAt (prune_end_nodes t) p = some s' →
      ∃ s, subtreeAt t p = some s ∧ s' = prune_end_nodes s := by
  induction p with
  | nil =>
    intro t s' h
    simp at h
    exact ⟨t, rfl, h.symm⟩
  | cons u q ih =>
    intro t s' h
    rcases t with ⟨b, m, cs⟩
    rw [prune_mk] at h
    split at h
    · rw [subtreeAt_cons] at h
      simp at h
    · rw [subtreeAt_cons] at h
      simp only [children_mk] at h
      rw [findChild_prune_forest] at h
      rcases hfc : findChild cs u with _ | c
      · rw [hfc] at h; simp at h
      · rw [hfc] at h
        have h' : subtreeAt (prune_end_nodes c) q = some s' := h
        obtain ⟨s, hs, rfl⟩ := ih c s' h'
        exact ⟨s, by rw [subtreeAt_cons]; simp [hfc, hs], rfl⟩

theorem prune_children_nil_of_isChain (t : MoveNode σ) (h : isChain t = true) :
    (prune_end_nodes t).children = [] := by
  induction t using inductionOn with
  | step b m cs ih =>
    rcases cs with _ | ⟨⟨k, c⟩, _ | ⟨⟨k₂, c₂⟩, rest⟩⟩
    · rw [prune_mk]
      simp [prune_forest, tailClearable]
    · have hc : isChain c = true := by simpa [isChain] using h
      rw [prune_mk_singleton_clear b m k c (ih (k, c) (by simp) hc)]
      simp
    · simp [isChain] at h

/-- C6: one top-level call of `prune_end_nodes` collapses unbranched tails
completely: a tree that is one single-child chain loses all its nodes below
the root, and any subtree that is such a chain is, after the one call, either
detached entirely or reduced to a leaf. -/
theorem claim_C6_chain_collapse {σ : Type} :
    (∀ t : MoveNode σ, isChain t = true → (prune_end_nodes t).children = [])
  ∧ (∀ (t s : MoveNode σ) (p : List String),
        subtreeAt t p = some s → isChain s = true →
        subtreeAt (prune_end_nodes t) p = none ∨
          ∃ s', subtreeAt (prune_end_nodes t) p = some s' ∧ s'.children = []) :=
  ⟨prune_children_nil_of_isChain,
   fun t s p hsub hchain => by
    rcases subtreeAt_prune p t s hsub with h | h
    · exact Or.inl h
    · exact Or.inr ⟨prune_end_nodes s, h, prune_children_nil_of_isChain s hchain⟩⟩

/-- Witness for C6 at a concrete input: a three-node chain is collapsed to its
root by one call, and the chain hanging below the branching root of a
concrete tree is collapsed to a leaf at its path. -/
theorem claim_C6_witness :
    (isChain (MoveNode.mk 0 none [("a", MoveNode.mk 1 (some "a")
        [("b", MoveNode.mk 2 (some "b") [])])] : MoveNode Nat) = true
      ∧ (prune_end_nodes (MoveNode.mk 0 none [("a", MoveNode.mk 1 (some "a")
          [("b", MoveNode.mk 2 (some "b") [])])] : MoveNode Nat)).children = [])
  ∧ (subtreeAt (MoveNode.mk 0 none
        [("a", MoveNode.mk 1 (some "a") [("c", MoveNode.mk 3 (some "c") [])]),
         ("b", MoveNode.mk 2 (some "b") [])] : MoveNode Nat) ["a"]
        = some (MoveNode.mk 1 (some "a") [("c", MoveNode.mk 3 (some "c") [])])
      ∧ isChain (MoveNode.mk 1 (some "a") [("c", MoveNode.mk 3 (some "c") [])] : MoveNode Nat) = true
      ∧ (subtreeAt (prune_end_nodes (MoveNode.mk 0 none
            [("a", MoveNode.mk 1 (some "a") [("c", MoveNode.mk 3 (some "c") [])]),
             ("b", MoveNode.mk 2 (some "b") [])])) ["a"] = none ∨
          ∃ s', subtreeAt (prune_end_nodes (MoveNode.mk 0 none
            [("a", MoveNode.mk 1 (some "a") [("c", MoveNode.mk 3 (some "c") [])]),
             ("b", MoveNode.mk 2 (some "b") [])])) ["a"] = some s' ∧ s'.children = [])) :=
  ⟨⟨rfl, claim_C6_chain_collapse.1 _ rfl⟩,
   ⟨rfl, rfl, claim_C6_chain_collapse.2 _ _ ["a"] rfl rfl⟩⟩

theorem subtreeAt_append_singleton (p : List String) :
    ∀ (t s' : MoveNode σ) (u : String), subtreeAt t (p ++ [u]) = some s' →
      ∃ par, subtreeAt t p = some par ∧ findChild par.children u = some s' := by
  induction p with
  | nil =>
    intro t s' u h
    refine ⟨t, rfl, ?_⟩
    rw [List.nil_append, subtreeAt_cons] at h
    rcases hfc : findChild t.children u with _ | c
    · rw [hfc] at h; simp at h
    · rw [hfc] at h
      simpa using h
  | cons v q ih =>
    intro t s' u h
    rw [List.cons_append, subtreeAt_cons] at h
    rcases hfc : findChild t.children v with _ | c
    · rw [hfc] at h; simp at h
    · rw [hfc] at h
      obtain ⟨par, hpar, hfind⟩ := ih c s' u h
      exact ⟨par, by rw [subtreeAt_cons, hfc]; exact hpar, hfind⟩

theorem fullyPruned_subtreeAt (p : List String) :
    ∀ (t s : MoveNode σ), fullyPruned t = true → subtreeAt t p = some s →
      fullyPruned s = true := by
  induction p with
  | nil =>
    intro t s ht h
    simp at h
    subst h
    exact ht
  | cons u q ih =>
    intro t s ht h
    rw [subtreeAt_cons] at h
    rcases hfc : findChild t.children u with _ | c
    · rw [hfc] at h; simp at h
    · rw [hfc] at h
      rcases t with ⟨b, m, cs⟩
      have hc : fullyPruned c = true :=
        ((fullyPruned_mk_iff b m cs).mp ht).2 (u, c) (findChild_mem (by simpa using hfc))
      exact ih c s hc h

theorem branching_parent_of_leaf_child (par s' : MoveNode σ) (u : String)
    (hp : fullyPruned par = true) (hfind : findChild par.children u = some s')
    (hleaf : s'.children = []) : 2 ≤ par.children.length := by
  rcases par with ⟨b, m, _ | ⟨⟨k, c⟩, _ | ⟨⟨k₂, c₂⟩, rest⟩⟩⟩
  · simp at hfind
  · rw [fullyPruned_mk_iff] at hp
    have hcc : c = s' := by
      simp only [children_mk, findChild_cons] at hfind
      by_cases hk : k = u
      · simpa [hk] using hfind
      · simp [hk] at hfind
    rw [tailClearable_mk_singleton, hcc, hleaf] at hp
    simp at hp
  · simp

/-- C4: after `prune_end_nodes`, every leaf of the pruned subtree other than
its root hangs directly off a node with at least two children: the parent of
any remaining leaf is a branching node, so no leaf sits below a chain of
single-child nodes. -/
theorem claim_C4_leaves_under_branching (t : MoveNode σ) (p : List String) (u : String)
    (s' : MoveNode σ)
    (hleafAt : subtreeAt (prune_end_nodes t) (p ++ [u]) = some s')
    (hleaf : s'.children = []) :
    ∃ par, subtreeAt (prune_end_nodes t) p = some par ∧ 2 ≤ par.children.length := by
  obtain ⟨par, hpar, hfind⟩ := subtreeAt_append_singleton p (prune_end_nodes t) s' u hleafAt
  have hfp : fullyPruned par = true :=
    fullyPruned_subtreeAt p (prune_end_nodes t) par (fullyPruned_prune t) hpar
  exact ⟨par, hpar, branching_parent_of_leaf_child par s' u hfp hfind hleaf⟩

/-- Witness for C4 at a concrete input: in the pruned two-branch tree the leaf
stored at path ["a", "b"] hangs off the node at path ["a"], which has two
children. -/
theorem claim_C4_witness :
    subtreeAt (prune_end_nodes (MoveNode.mk 0 none [("a", MoveNode.mk 1 (some "a")
        [("b", MoveNode.mk 2 (some "b") []), ("c", MoveNode.mk 3 (some "c") [])])] : MoveNode Nat))
        (["a"] ++ ["b"])
      = some (MoveNode.mk 2 (some "b") [])
  ∧ (MoveNode.mk 2 (some "b") ([] : List (String × MoveNode Nat))).children = []
  ∧ ∃ par, subtreeAt (prune_end_nodes (MoveNode.mk 0 none [("a", MoveNode.mk 1 (some "a")
        [("b", MoveNode.mk 2 (some "b") []), ("c", MoveNode.mk 3 (some "c") [])])] : MoveNode Nat))
        ["a"] = some par ∧ 2 ≤ par.children.length :=
  ⟨rfl, rfl, claim_C4_leaves_under_branching _ ["a"] "b" _ rfl rfl⟩

theorem mem_forestPaths (p : List String) (cs : List (String × MoveNode σ)) :
    p ∈ forestPaths cs ↔ ∃ kc ∈ cs, ∃ q, p = kc.1 :: q ∧ q ∈ treePaths kc.2 := by
  induction cs with
  | nil => simp [forestPaths]
  | cons kc rest ih =>
    obtain ⟨k, c⟩ := kc
    simp only [forestPaths, List.mem_append, List.mem_map, ih]
    constructor
    · rintro (⟨q, hq, rfl⟩ | ⟨kc', hkc', q, rfl, hq⟩)
      · exact ⟨(k, c), by simp, q, rfl, hq⟩
      · exact ⟨kc', by simp [hkc'], q, rfl, hq⟩
    · rintro ⟨kc', hkc', q, rfl, hq⟩
      rcases List.mem_cons.mp hkc' with h1 | h1
      · subst h1
        exact Or.inl ⟨q, hq, rfl⟩
      · exact Or.inr ⟨kc', h1, q, rfl, hq⟩

theorem mem_treePaths_mk (p : List String) (b : σ) (m : Option String)
    (cs : List (String × MoveNode σ)) :
    p ∈ treePaths (MoveNode.mk b m cs) ↔
      p = [] ∨ ∃ kc ∈ cs, ∃ q, p = kc.1 :: q ∧ q ∈ treePaths kc.2 := by
  simp only [treePaths, List.mem_cons, mem_forestPaths]

theorem nil_mem_treePaths (t : MoveNode σ) : [] ∈ treePaths t := by
  rcases t with ⟨b, m, cs⟩
  simp [treePaths]

theorem treePaths_prune_subset (t : MoveNode σ) :
    ∀ p, p ∈ treePaths (prune_end_nodes t) → p ∈ treePaths t := by
  induction t using inductionOn with
  | step b m cs ih =>
    intro p hp
    rw [prune_mk] at hp
    split at hp
    · rw [mem_treePaths_mk] at hp
      rcases hp with rfl | ⟨kc, hkc, q, rfl, hq⟩
      · exact nil_mem_treePaths _
      · simp at hkc
    · rw [mem_treePaths_mk] at hp
      rcases hp with rfl | ⟨kc, hkc, q, rfl, hq⟩
      · exact nil_mem_treePaths _
      · rw [prune_forest_eq_map] at hkc
        obtain ⟨kc₀, hkc₀, rfl⟩ := List.mem_map.mp hkc
        rw [mem_treePaths_mk]
        exact Or.inr ⟨kc₀, hkc₀, q, rfl, ih kc₀ hkc₀ q hq⟩

theorem countForest_prune_le (cs : List (String × MoveNode σ))
    (h : ∀ kc ∈ cs, countNodes (prune_end_nodes kc.2) ≤ countNodes kc.2) :
    countForest (prune_forest cs) ≤ countForest cs := by
  induction cs with
  | nil => simp [prune_forest]
  | cons kc rest ih =>
    obtain ⟨k, c⟩ := kc
    simp only [prune_forest, countForest]
    have h1 : countNodes (prune_end_nodes c) ≤ countNodes c := h (k, c) (by simp)
    have h2 := ih (fun kc hkc => h kc (by simp [hkc]))
    omega

theorem countNodes_prune_le (t : MoveNode σ) :
    countNodes (prune_end_nodes t) ≤ countNodes t := by
  induction t using inductionOn with
  | step b m cs ih =>
    rw [prune_mk]
    split
    · simp only [countNodes, countForest]
      omega
    · simp only [countNodes]
      have := countForest_prune_le cs ih
      omega

/-- C10: `prune_end_nodes` is frame-bounded: it preserves the board state and
incoming move of the node it is applied to, never detaches that node itself,
only ever shrinks the set of paths (no node is created), preserves board and
move of every surviving node, and does not increase the node count. -/
theorem claim_C10_prune_frame (t : MoveNode σ) :
    (prune_end_nodes t).board = t.board
  ∧ (prune_end_nodes t).move = t.move
  ∧ (∀ p, p ∈ treePaths (prune_end_nodes t) → p ∈ treePaths t)
  ∧ (∀ p s', subtreeAt (prune_end_nodes t) p = some s' →
        ∃ s, subtreeAt t p = some s ∧ s'.board = s.board ∧ s'.move = s.move)
  ∧ [] ∈ treePaths (prune_end_nodes t)
  ∧ countNodes (prune_end_nodes t) ≤ countNodes t :=
  ⟨prune_board t, prune_move t, treePaths_prune_subset t,
   fun p s' h => by
    obtain ⟨s, hs, rfl⟩ := subtreeAt_prune_inv p t s' h
    exact ⟨s, hs, prune_board s, prune_move s⟩,
   nil_mem_treePaths _, countNodes_prune_le t⟩

/-- Witness for C10 at a concrete input: pruning a two-node chain keeps the
root's board and move, keeps the root path, and only removes paths. -/
theorem claim_C10_witness :
    (prune_end_nodes (MoveNode.mk 7 none [("a", MoveNode.mk 8 (some "a") [])] :
        MoveNode Nat)).board = (MoveNode.mk 7 none [("a", MoveNode.mk 8 (some "a") [])] :
        MoveNode Nat).board
  ∧ [] ∈ treePaths (prune_end_nodes (MoveNode.mk 7 none
        [("a", MoveNode.mk 8 (some "a") [])] : MoveNode Nat))
  ∧ countNodes (prune_end_nodes (MoveNode.mk 7 none
        [("a", MoveNode.mk 8 (some "a") [])] : MoveNode Nat))
      ≤ countNodes (MoveNode.mk 7 none [("a", MoveNode.mk 8 (some "a") [])] : MoveNode Nat) :=
  ⟨(claim_C10_prune_frame _).1,
   (claim_C10_prune_frame _).2.2.2.2.1,
   (claim_C10_prune_frame _).2.2.2.2.2⟩

theorem findChild_append_of_none (cs ds : List (String × MoveNode σ)) (u : String)
    (h : findChild cs u = none) : findChild (cs ++ ds) u = findChild ds u := by
  induction cs with
  | nil => simp
  | cons kc rest ih =>
    obtain ⟨k, c⟩ := kc
    rw [findChild_cons] at h
    by_cases hk : k = u
    · simp [hk] at h
    · rw [List.cons_append, findChild_cons]
      simp only [hk, if_false]
      exact ih (by simpa [hk] using h)

theorem add_child_of_found (evolve : σ → String → σ) (t : MoveNode σ) (u : String)
    (c : MoveNode σ) (h : findChild t.children u = some c) :
    add_child evolve t u = t ∧ returned_child evolve t u = some c := by
  rcases t with ⟨b, m, cs⟩
  simp only [children_mk] at h
  have hsome : (findChild cs u).isSome = true := by rw [h]; rfl
  constructor
  · simp only [add_child, hsome, if_true]
  · simp only [returned_child, add_child, hsome, if_true, children_mk]
    exact h

theorem add_child_idem (evolve : σ → String → σ) (t : MoveNode σ) (u : String) :
    add_child evolve (add_child evolve t u) u = add_child evolve t u := by
  rcases t with ⟨b, m, cs⟩
  rcases hfc : findChild cs u with _ | c
  · have hnone : (findChild cs u).isSome = false := by rw [hfc]; rfl
    simp only [add_child, hnone, Bool.false_eq_true, if_false, children_mk]
    have hnew : findChild (cs ++ [(u, MoveNode.mk (evolve b u) (some u) [])]) u
        = some (MoveNode.mk (evolve b u) (some u) []) := by
      rw [findChild_append_of_none cs _ u hfc, findChild_cons]
      simp
    rw [show (findChild (cs ++ [(u, MoveNode.mk (evolve b u) (some u) [])]) u).isSome = true by
      rw [hnew]; rfl]
    simp
  · have hsome : (findChild cs u).isSome = true := by rw [hfc]; rfl
    simp only [add_child, hsome, if_true]

/-- C9: a move key already present in a node's children dict is no error:
`add_child` with such a key leaves the whole tree unchanged (no node created,
no board recomputed or overwritten) and returns the already-stored child, and
calling `add_child` twice with the same move equals calling it once. -/
theorem claim_C9_add_child_collision {σ : Type} (evolve : σ → String → σ) :
    (∀ (t : MoveNode σ) (u : String) (c : MoveNode σ),
        findChild t.children u = some c →
        add_child evolve t u = t ∧ returned_child evolve t u = some c)
  ∧ (∀ (t : MoveNode σ) (u : String),
        add_child evolve (add_child evolve t u) u = add_child evolve t u) :=
  ⟨fun t u c h => add_child_of_found evolve t u c h,
   fun t u => add_child_idem evolve t u⟩

/-- Witness for C9 at a concrete input: adding the already-present move "a"
leaves the node unchanged and returns the stored child (whose board 5 is not
recomputed by the evolution function, which always yields 99); a repeated
`add_child` of a fresh move "b" equals a single one. -/
theorem claim_C9_witness :
    findChild (MoveNode.mk 0 none [("a", MoveNode.mk 5 (some "a") [])] :
        MoveNode Nat).children "a" = some (MoveNode.mk 5 (some "a") [])
  ∧ (add_child (fun _ _ => 99) (MoveNode.mk 0 none [("a", MoveNode.mk 5 (some "a") [])]) "a"
        = MoveNode.mk 0 none [("a", MoveNode.mk 5 (some "a") [])]
      ∧ returned_child (fun _ _ => 99) (MoveNode.mk 0 none [("a", MoveNode.mk 5 (some "a") [])]) "a"
        = some (MoveNode.mk 5 (some "a") []))
  ∧ add_child (fun _ _ => 99)
      (add_child (fun _ _ => 99) (MoveNode.mk 0 none [("a", MoveNode.mk 5 (some "a") [])]) "b") "b"
    = add_child (fun _ _ => 99) (MoveNode.mk 0 none [("a", MoveNode.mk 5 (some "a") [])]) "b" :=
  ⟨rfl,
   (claim_C9_add_child_collision (fun _ _ => 99)).1 _ "a" _ rfl,
   (claim_C9_add_child_collision (fun _ _ => 99)).2 _ "b"⟩

theorem findChild_eq_none_iff (cs : List (String × MoveNode σ)) (u : String) :
    findChild cs u = none ↔ u ∉ cs.map Prod.fst := by
  induction cs with
  | nil => simp
  | cons kc rest ih =>
    obtain ⟨k, c⟩ := kc
    rw [findChild_cons]
    by_cases hk : k = u
    · subst hk
      simp
    · rw [if_neg hk, ih]
      simp only [List.map_cons, List.mem_cons, not_or]
      constructor
      · intro h
        exact ⟨fun hh => hk hh.symm, h⟩
      · intro h
        exact h.2

theorem findChild_append (cs ds : List (String × MoveNode σ)) (u : String) :
    findChild (cs ++ ds) u =
      match findChild cs u with
      | some c => some c
      | none => findChild ds u := by
  induction cs with
  | nil => simp
  | cons kc rest ih =>
    obtain ⟨k, c⟩ := kc
    rw [List.cons_append, findChild_cons, findChild_cons]
    by_cases hk : k = u <;> simp [hk, ih]

theorem replaceChild_eq_map (cs : List (String × MoveNode σ)) (u : String) (c' : MoveNode σ) :
    replaceChild cs u c' = cs.map (fun kc => if kc.1 = u then (u, c') else kc) := by
  induction cs with
  | nil => simp [replaceChild]
  | cons kc rest ih =>
    obtain ⟨k, c⟩ := kc
    simp only [replaceChild, List.map_cons]
    by_cases hk : k = u
    · subst hk
      simp [ih]
    · simp [hk, ih]

theorem replaceChild_keys (cs : List (String × MoveNode σ)) (u : String) (c' : MoveNode σ) :
    (replaceChild cs u c').map Prod.fst = cs.map Prod.fst := by
  rw [replaceChild_eq_map, List.map_map]
  apply List.map_congr_left
  intro kc _
  by_cases hk : kc.1 = u <;> simp [hk]

theorem mem_replaceChild_of {cs : List (String × MoveNode σ)} {u k : String}
    {c' d : MoveNode σ} (h : (k, d) ∈ replaceChild cs u c') :
    (k = u ∧ d = c') ∨ ((k, d) ∈ cs ∧ k ≠ u) := by
  rw [replaceChild_eq_map] at h
  obtain ⟨kc, hkc, heq⟩ := List.mem_map.mp h
  by_cases hk : kc.1 = u
  · rw [if_pos hk] at heq
    exact Or.inl ⟨(Prod.mk.injEq _ _ _ _ ▸ heq).1.symm, (Prod.mk.injEq _ _ _ _ ▸ heq).2.symm⟩
  · rw [if_neg hk] at heq
    subst heq
    exact Or.inr ⟨hkc, hk⟩

theorem mem_replaceChild_of_mem_ne {cs : List (String × MoveNode σ)} {u k : String}
    {c' d : MoveNode σ} (h : (k, d) ∈ cs) (hk : k ≠ u) : (k, d) ∈ replaceChild cs u c' := by
  rw [replaceChild_eq_map]
  exact List.mem_map.mpr ⟨(k, d), h, by simp [hk]⟩

theorem mem_replaceChild_self {cs : List (String × MoveNode σ)} {u : String}
    {c' : MoveNode σ} (h : u ∈ cs.map Prod.fst) : (u, c') ∈ replaceChild cs u c' := by
  rw [replaceChild_eq_map]
  obtain ⟨kc, hkc, hfst⟩ := List.mem_map.mp h
  exact List.mem_map.mpr ⟨kc, hkc, by simp [hfst]⟩

theorem findChild_replaceChild_self (cs : List (String × MoveNode σ)) (u : String)
    (c c' : MoveNode σ) (h : findChild cs u = some c) :
    findChild (replaceChild cs u c') u = some c' := by
  induction cs with
  | nil => simp at h
  | cons kc rest ih =>
    obtain ⟨k, c₀⟩ := kc
    rw [findChild_cons] at h
    simp only [replaceChild]
    by_cases hk : k = u
    · simp [hk, findChild_cons]
    · rw [if_neg hk, findChild_cons, if_neg hk]
      exact ih (by simpa [hk] using h)

theorem findChild_replaceChild_ne (cs : List (String × MoveNode σ)) (u v : String)
    (c' : MoveNode σ) (h : v ≠ u) :
    findChild (replaceChild cs u c') v = findChild cs v := by
  induction cs with
  | nil => simp [replaceChild]
  | cons kc rest ih =>
    obtain ⟨k, c₀⟩ := kc
    simp only [replaceChild]
    by_cases hk : k = u
    · subst hk
      rw [if_pos rfl, findChild_cons, findChild_cons, if_neg (fun hh => h hh.symm),
        if_neg (fun hh => h hh.symm)]
      exact ih
    · rw [if_neg hk, findChild_cons, findChild_cons]
      by_cases hv : k = v <;> simp [hv, ih]

theorem wfForest_iff (cs : List (String × MoveNode σ)) :
    wfForest cs = true ↔ ∀ kc ∈ cs, kc.2.move = some kc.1 ∧ wf kc.2 = true := by
  induction cs with
  | nil => simp [wfForest]
  | cons kc rest ih =>
    obtain ⟨k, c⟩ := kc
    simp [wfForest, Bool.and_eq_true, ih, and_assoc]

theorem wf_mk_iff (b : σ) (m : Option String) (cs : List (String × MoveNode σ)) :
    wf (MoveNode.mk b m cs) = true ↔
      (cs.map Prod.fst).Nodup ∧ ∀ kc ∈ cs, kc.2.move = some kc.1 ∧ wf kc.2 = true := by
  simp [wf, Bool.and_eq_true, wfForest_iff]

@[simp] theorem ingest_nil (evolve : σ → String → σ) (t : MoveNode σ) :
    ingest evolve t [] = t := by
  rcases t with ⟨b, m, cs⟩
  rfl

theorem ingest_board (evolve : σ → String → σ) (s : List String) (t : MoveNode σ) :
    (ingest evolve t s).board = t.board := by
  rcases s with _ | ⟨u, rest⟩
  · rw [ingest_nil]
  · rcases t with ⟨b, m, cs⟩
    simp only [ingest]
    rcases findChild cs u with _ | c <;> rfl

theorem ingest_move (evolve : σ → String → σ) (s : List String) (t : MoveNode σ) :
    (ingest evolve t s).move = t.move := by
  rcases s with _ | ⟨u, rest⟩
  · rw [ingest_nil]
  · rcases t with ⟨b, m, cs⟩
    simp only [ingest]
    rcases findChild cs u with _ | c <;> rfl

theorem wf_ingest (evolve : σ → String → σ) (s : List String) :
    ∀ t : MoveNode σ, wf t = true → wf (ingest evolve t s) = true := by
  induction s with
  | nil =>
    intro t h
    rw [ingest_nil]
    exact h
  | cons u rest ih =>
    intro t h
    rcases t with ⟨b, m, cs⟩
    rw [wf_mk_iff] at h
    obtain ⟨hnodup, hkids⟩ := h
    simp only [ingest]
    rcases hfc : findChild cs u with _ | c
    · rw [wf_mk_iff]
      constructor
      · rw [List.map_append]
        simp only [List.map_cons, List.map_nil]
        rw [List.nodup_append]
        refine ⟨hnodup, List.nodup_singleton u, ?_⟩
        intro v hv hv'
        simp at hv'
        subst hv'
        exact (findChild_eq_none_iff cs v).mp hfc hv
      · intro kc hkc
        rcases List.mem_append.mp hkc with h1 | h1
        · exact hkids kc h1
        · have h2 : kc = (u, ingest evolve (MoveNode.mk (evolve b u) (some u) []) rest) := by
            simpa using h1
          subst h2
          refine ⟨?_, ih _ (by rw [wf_mk_iff]; simp)⟩
          rw [ingest_move]
          rfl
    · rw [wf_mk_iff]
      constructor
      · rw [replaceChild_keys]
        exact hnodup
      · intro kc hkc
        obtain ⟨k, d⟩ := kc
        rcases mem_replaceChild_of hkc with ⟨rfl, rfl⟩ | ⟨hmem, _⟩
        · have hc := hkids (k, c) (findChild_mem hfc)
          refine ⟨?_, ih c hc.2⟩
          rw [ingest_move]
          exact hc.1
        · exact hkids (k, d) hmem

theorem nodup_findChild {cs : List (String × MoveNode σ)} (h : (cs.map Prod.fst).Nodup)
    {k : String} {d : MoveNode σ} (hm : (k, d) ∈ cs) : findChild cs k = some d := by
  induction cs with
  | nil => simp at hm
  | cons kc rest ih =>
    obtain ⟨k₀, c₀⟩ := kc
    rw [List.map_cons, List.nodup_cons] at h
    rw [findChild_cons]
    rcases List.mem_cons.mp hm with h1 | h1
    · rw [Prod.mk.injEq] at h1
      obtain ⟨rfl, rfl⟩ := h1
      simp
    · by_cases hk : k₀ = k
      · subst hk
        exact absurd (List.mem_map.mpr ⟨(k₀, d), h1, rfl⟩) h.1
      · rw [if_neg hk]
        exact ih h.2 h1

theorem treePaths_fresh (b : σ) (m : Option String) :
    treePaths (MoveNode.mk b m []) = [[]] := rfl

theorem mem_treePaths_ingest (evolve : σ → String → σ) (s : List String) :
    ∀ (t : MoveNode σ) (p : List String), wf t = true →
      (p ∈ treePaths (ingest evolve t s) ↔ p ∈ treePaths t ∨ p <+: s) := by
  induction s with
  | nil =>
    intro t p hwf
    rw [ingest_nil]
    constructor
    · exact Or.inl
    · rintro (h | h)
      · exact h
      · rw [List.prefix_nil.mp h]
        exact nil_mem_treePaths t
  | cons u rest ih =>
    intro t p hwf
    rcases t with ⟨b, m, cs⟩
    rw [wf_mk_iff] at hwf
    obtain ⟨hnodup, hkids⟩ := hwf
    simp only [ingest]
    rcases hfc : findChild cs u with _ | c
    · have hwfF : wf (MoveNode.mk (evolve b u) (some u) ([] : List (String × MoveNode σ))) = true := by
        rw [wf_mk_iff]
        simp
      rw [mem_treePaths_mk, mem_treePaths_mk]
      constructor
      · rintro (rfl | ⟨kc, hkc, q, rfl, hq⟩)
        · exact Or.inl (Or.inl rfl)
        · rcases List.mem_append.mp hkc with h1 | h1
          · exact Or.inl (Or.inr ⟨kc, h1, q, rfl, hq⟩)
          · have h2 : kc = (u, ingest evolve (MoveNode.mk (evolve b u) (some u) []) rest) := by
              simpa using h1
            subst h2
            rw [ih _ q hwfF] at hq
            rcases hq with hq | hq
            · have hq0 : q = [] := by simpa [treePaths_fresh] using hq
              subst hq0
              exact Or.inr (List.cons_prefix_cons.mpr ⟨rfl, List.nil_prefix⟩)
            · exact Or.inr (List.cons_prefix_cons.mpr ⟨rfl, hq⟩)
      · rintro ((rfl | ⟨kc, hkc, q, rfl, hq⟩) | hpre)
        · exact Or.inl rfl
        · exact Or.inr ⟨kc, List.mem_append.mpr (Or.inl hkc), q, rfl, hq⟩
        · rcases p with _ | ⟨v, q⟩
          · exact Or.inl rfl
          · obtain ⟨rfl, hq⟩ := List.cons_prefix_cons.mp hpre
            refine Or.inr ⟨(v, ingest evolve (MoveNode.mk (evolve b v) (some v) []) rest),
              List.mem_append.mpr (Or.inr (by simp)), q, rfl, ?_⟩
            rw [ih _ q (by rw [wf_mk_iff]; simp)]
            exact Or.inr hq
    · have hc := hkids (u, c) (findChild_mem hfc)
      rw [mem_treePaths_mk, mem_treePaths_mk]
      constructor
      · rintro (rfl | ⟨⟨k, d⟩, hkc, q, rfl, hq⟩)
        · exact Or.inl (Or.inl rfl)
        · rcases mem_replaceChild_of hkc with ⟨rfl, rfl⟩ | ⟨hmem, hne⟩
          · rw [ih c q hc.2] at hq
            rcases hq with hq | hq
            · exact Or.inl (Or.inr ⟨(k, c), findChild_mem hfc, q, rfl, hq⟩)
            · exact Or.inr (List.cons_prefix_cons.mpr ⟨rfl, hq⟩)
          · exact Or.inl (Or.inr ⟨(k, d), hmem, q, rfl, hq⟩)
      · rintro ((rfl | ⟨⟨k, d⟩, hkc, q, rfl, hq⟩) | hpre)
        · exact Or.inl rfl
        · by_cases hk : k = u
          · subst hk
            have hd : d = c := by
              have h2 := nodup_findChild hnodup hkc
              rw [hfc] at h2
              exact (Option.some.inj h2).symm
            subst hd
            refine Or.inr ⟨(k, ingest evolve d rest),
              mem_replaceChild_self (List.mem_map.mpr ⟨(k, d), hkc, rfl⟩), q, rfl, ?_⟩
            rw [ih d q hc.2]
            exact Or.inl hq
          · exact Or.inr ⟨(k, d), mem_replaceChild_of_mem_ne hkc hk, q, rfl, hq⟩
        · rcases p with _ | ⟨v, q⟩
          · exact Or.inl rfl
          · obtain ⟨rfl, hq⟩ := List.cons_prefix_cons.mp hpre
            refine Or.inr ⟨(v, ingest evolve c rest),
              mem_replaceChild_self (List.mem_map.mpr ⟨(v, c), findChild_mem hfc, rfl⟩),
              q, rfl, ?_⟩
            rw [ih c q hc.2]
            exact Or.inr hq

theorem forestPaths_nodup (cs : List (String × MoveNode σ))
    (hkeys : (cs.map Prod.fst).Nodup)
    (hpt : ∀ kc ∈ cs, (treePaths kc.2).Nodup) : (forestPaths cs).Nodup := by
  induction cs with
  | nil => simp [forestPaths]
  | cons kc rest ih =>
    obtain ⟨k, c⟩ := kc
    rw [List.map_cons, List.nodup_cons] at hkeys
    simp only [forestPaths]
    rw [List.nodup_append]
    refine ⟨?_, ih hkeys.2 (fun kc hkc => hpt kc (by simp [hkc])), ?_⟩
    · exact (hpt (k, c) (by simp)).map (fun a b hab => by injection hab)
    · intro x hx hx'
      obtain ⟨q, _, rfl⟩ := List.mem_map.mp hx
      obtain ⟨kc', hkc', q', heq, _⟩ := (mem_forestPaths _ rest).mp hx'
      have hk : k = kc'.1 := by injection heq
      exact hkeys.1 (List.mem_map.mpr ⟨kc', hkc', hk.symm⟩)

theorem treePaths_nodup (t : MoveNode σ) (h : wf t = true) : (treePaths t).Nodup := by
  induction t using inductionOn with
  | step b m cs ih =>
    rw [wf_mk_iff] at h
    simp only [treePaths]
    rw [List.nodup_cons]
    constructor
    · intro hmem
      obtain ⟨kc, _, q, heq, _⟩ := (mem_forestPaths _ cs).mp hmem
      exact List.noConfusion heq
    · exact forestPaths_nodup cs h.1 (fun kc hkc => ih kc hkc (h.2 kc hkc).2)

theorem countForest_eq (cs : List (String × MoveNode σ))
    (h : ∀ kc ∈ cs, countNodes kc.2 = (treePaths kc.2).length) :
    countForest cs = (forestPaths cs).length := by
  induction cs with
  | nil => rfl
  | cons kc rest ih =>
    obtain ⟨k, c⟩ := kc
    simp only [countForest, forestPaths, List.length_append, List.length_map]
    have h1 : countNodes c = (treePaths c).length := h (k, c) (by simp)
    have h2 := ih (fun kc hkc => h kc (by simp [hkc]))
    omega

theorem countNodes_eq_length_treePaths (t : MoveNode σ) :
    countNodes t = (treePaths t).length := by
  induction t using inductionOn with
  | step b m cs ih =>
    simp only [countNodes, treePaths, List.length_cons]
    have := countForest_eq cs ih
    omega

theorem wf_foldl_ingest (evolve : σ → String → σ) (seqs : List (List String)) :
    ∀ t : MoveNode σ, wf t = true → wf (seqs.foldl (ingest evolve) t) = true := by
  induction seqs with
  | nil => intro t h; exact h
  | cons s seqs ih =>
    intro t h
    rw [List.foldl_cons]
    exact ih _ (wf_ingest evolve s t h)

theorem mem_treePaths_foldl (evolve : σ → String → σ) (seqs : List (List String)) :
    ∀ (t : MoveNode σ) (p : List String), wf t = true →
      (p ∈ treePaths (seqs.foldl (ingest evolve) t) ↔
        p ∈ treePaths t ∨ ∃ s ∈ seqs, p <+: s) := by
  induction seqs with
  | nil =>
    intro t p h
    simp
  | cons s seqs ih =>
    intro t p h
    rw [List.foldl_cons, ih _ p (wf_ingest evolve s t h),
      mem_treePaths_ingest evolve s t p h]
    constructor
    · rintro ((h1 | h1) | ⟨s', hs', h1⟩)
      · exact Or.inl h1
      · exact Or.inr ⟨s, by simp, h1⟩
      · exact Or.inr ⟨s', by simp [hs'], h1⟩
    · rintro (h1 | ⟨s', hs', h1⟩)
      · exact Or.inl (Or.inl h1)
      · rcases List.mem_cons.mp hs' with rfl | hs'
        · exact Or.inl (Or.inr h1)
        · exact Or.inr ⟨s', hs', h1⟩

theorem wf_fresh_root (init : σ) : wf (MoveNode.mk init none ([] : List (String × MoveNode σ))) = true := by
  rw [wf_mk_iff]
  simp

theorem mem_treePaths_build_tree (evolve : σ → String → σ) (init : σ)
    (seqs : List (List String)) (p : List String) :
    p ∈ treePaths (build_tree evolve init seqs) ↔ p = [] ∨ ∃ s ∈ seqs, p <+: s := by
  rw [build_tree, mem_treePaths_foldl evolve seqs _ p (wf_fresh_root init), treePaths_fresh]
  simp

theorem mem_distinctPrefixes (seqs : List (List String)) (p : List String) :
    p ∈ distinctPrefixes seqs ↔ p = [] ∨ ∃ s ∈ seqs, p <+: s := by
  simp [distinctPrefixes, List.mem_dedup, List.mem_inits]

/-- C3: ingesting a collection of move sequences into one fresh root produces
one node per distinct move-path prefix: the paths present in the tree are
exactly the prefixes of the ingested sequences (the root being the empty
prefix), each such path occurs exactly once (shared prefixes share one chain
of nodes), and the node count equals the number of distinct prefixes -- not
the number of distinct board positions and not sequences times moves. -/
theorem claim_C3_node_count {σ : Type} (evolve : σ → String → σ) (init : σ)
    (seqs : List (List String)) :
    (treePaths (build_tree evolve init seqs)).Nodup
  ∧ (∀ p, p ∈ treePaths (build_tree evolve init seqs) ↔ (p = [] ∨ ∃ s ∈ seqs, p <+: s))
  ∧ countNodes (build_tree evolve init seqs) = (distinctPrefixes seqs).length := by
  have hwf : wf (build_tree evolve init seqs) = true :=
    wf_foldl_ingest evolve seqs _ (wf_fresh_root init)
  have hnd := treePaths_nodup _ hwf
  refine ⟨hnd, mem_treePaths_build_tree evolve init seqs, ?_⟩
  rw [countNodes_eq_length_treePaths]
  refine List.Perm.length_eq ?_
  rw [distinctPrefixes, List.perm_ext_iff_of_nodup hnd (List.nodup_dedup _)]
  intro p
  rw [mem_treePaths_build_tree evolve init seqs p]
  simp [List.mem_dedup, List.mem_inits]

/-- Witness for C3 at a concrete input: two sequences sharing the prefix
["e4"] give a tree of 4 nodes (root, e4, e4-e5, e4-d5), matching the 4
distinct prefixes. -/
theorem claim_C3_witness :
    countNodes (build_tree (fun n _ => n + 1) (0 : Nat) [["e4", "e5"], ["e4", "d5"]])
      = (distinctPrefixes [["e4", "e5"], ["e4", "d5"]]).length
  ∧ countNodes (build_tree (fun n _ => n + 1) (0 : Nat) [["e4", "e5"], ["e4", "d5"]]) = 4 :=
  ⟨(claim_C3_node_count (fun n _ => n + 1) 0 [["e4", "e5"], ["e4", "d5"]]).2.2, rfl⟩

@[simp] theorem pathState_nil (evolve : σ → String → σ) (init : σ) :
    pathState evolve init [] = init := rfl

theorem pathState_cons (evolve : σ → String → σ) (init : σ) (u : String) (p : List String) :
    pathState evolve init (u :: p) = pathState evolve (evolve init u) p := rfl

/-- Every node reachable from `t` carries the board obtained by replaying its
path of move keys from `t`'s own board: this is the determinism of the
external board-evolution capability reflected in the built tree. -/
def boardsOK (evolve : σ → String → σ) (t : MoveNode σ) : Prop :=
  ∀ p s, subtreeAt t p = some s → s.board = pathState evolve t.board p

theorem boardsOK_leaf (evolve : σ → String → σ) (b : σ) (m : Option String) :
    boardsOK evolve (MoveNode.mk b m []) := by
  intro p s h
  rcases p with _ | ⟨u, q⟩
  · simp at h
    subst h
    rfl
  · rw [subtreeAt_cons] at h
    simp at h

theorem boardsOK_child {evolve : σ → String → σ} {t : MoveNode σ} {u : String}
    {c : MoveNode σ} (h : boardsOK evolve t) (hfc : findChild t.children u = some c) :
    boardsOK evolve c := by
  have hboard : c.board = evolve t.board u := by
    have := h [u] c (by rw [subtreeAt_cons, hfc]; rfl)
    simpa [pathState_cons] using this
  intro q s hq
  have hsub : subtreeAt t (u :: q) = some s := by
    rw [subtreeAt_cons, hfc]
    exact hq
  have := h (u :: q) s hsub
  rw [pathState_cons] at this
  rw [this, hboard]

theorem boardsOK_ingest (evolve : σ → String → σ) (s : List String) :
    ∀ t : MoveNode σ, boardsOK evolve t → boardsOK evolve (ingest evolve t s) := by
  induction s with
  | nil =>
    intro t h
    rw [ingest_nil]
    exact h
  | cons u rest ih =>
    intro t hOK
    rcases t with ⟨b, m, cs⟩
    simp only [ingest]
    rcases hfc : findChild cs u with _ | c
    · intro p s' hsub
      rcases p with _ | ⟨v, q⟩
      · simp at hsub
        subst hsub
        rfl
      · rw [subtreeAt_cons] at hsub
        simp only [children_mk] at hsub
        rw [findChild_append] at hsub
        rcases hfd : findChild cs v with _ | d
        · rw [hfd] at hsub
          simp only at hsub
          rw [findChild_cons] at hsub
          by_cases hv : u = v
          · subst hv
            rw [if_pos rfl] at hsub
            have hF : boardsOK evolve (ingest evolve (MoveNode.mk (evolve b u) (some u) []) rest) :=
              ih _ (boardsOK_leaf evolve (evolve b u) (some u))
            have hb : (ingest evolve (MoveNode.mk (evolve b u) (some u) []) rest).board
                = evolve b u := by
              rw [ingest_board]
              rfl
            have := hF q s' hsub
            rw [hb] at this
            simpa [pathState_cons] using this
          · rw [if_neg hv] at hsub
            simp at hsub
        · rw [hfd] at hsub
          simp only at hsub
          have hsub' : subtreeAt (MoveNode.mk b m cs) (v :: q) = some s' := by
            rw [subtreeAt_cons]
            simp only [children_mk]
            rw [hfd]
            exact hsub
          simpa using hOK (v :: q) s' hsub'
    · intro p s' hsub
      rcases p with _ | ⟨v, q⟩
      · simp at hsub
        subst hsub
        rfl
      · rw [subtreeAt_cons] at hsub
        simp only [children_mk] at hsub
        by_cases hv : v = u
        · subst hv
          rw [findChild_replaceChild_self cs v c _ hfc] at hsub
          have hC : boardsOK evolve (ingest evolve c rest) :=
            ih c (boardsOK_child hOK (by simpa using hfc))
          have hb : (ingest evolve c rest).board = evolve b v := by
            rw [ingest_board]
            have := hOK [v] c (by rw [subtreeAt_cons]; simp [hfc])
            simpa [pathState_cons] using this
          have := hC q s' hsub
          rw [hb] at this
          simpa [pathState_cons] using this
        · rw [findChild_replaceChild_ne cs u v _ hv] at hsub
          rcases hfd : findChild cs v with _ | d
          · rw [hfd] at hsub
            simp at hsub
          · rw [hfd] at hsub
            have hsub' : subtreeAt (MoveNode.mk b m cs) (v :: q) = some s' := by
              rw [subtreeAt_cons]
              simp only [children_mk]
              rw [hfd]
              exact hsub
            simpa using hOK (v :: q) s' hsub'

theorem foldl_ingest_board (evolve : σ → String → σ) (seqs : List (List String)) :
    ∀ t : MoveNode σ, (seqs.foldl (ingest evolve) t).board = t.board := by
  induction seqs with
  | nil => intro t; rfl
  | cons s seqs ih =>
    intro t
    rw [List.foldl_cons, ih, ingest_board]

theorem boardsOK_foldl (evolve : σ → String → σ) (seqs : List (List String)) :
    ∀ t : MoveNode σ, boardsOK evolve t → boardsOK evolve (seqs.foldl (ingest evolve) t) := by
  induction seqs with
  | nil => intro t h; exact h
  | cons s seqs ih =>
    intro t h
    rw [List.foldl_cons]
    exact ih _ (boardsOK_ingest evolve s t h)

theorem boardsOK_build_tree (evolve : σ → String → σ) (init : σ) (seqs : List (List String)) :
    ∀ p s, subtreeAt (build_tree evolve init seqs) p = some s →
      s.board = pathState evolve init p := by
  have h : boardsOK evolve (build_tree evolve init seqs) :=
    boardsOK_foldl evolve seqs _ (boardsOK_leaf evolve init none)
  intro p s hp
  have h2 := h p s hp
  rwa [show (build_tree evolve init seqs).board = init from foldl_ingest_board evolve seqs _] at h2

theorem mem_treePaths_iff_subtreeAt (p : List String) :
    ∀ t : MoveNode σ, wf t = true → (p ∈ treePaths t ↔ (subtreeAt t p).isSome) := by
  induction p with
  | nil =>
    intro t h
    simp [nil_mem_treePaths]
  | cons u q ih =>
    intro t h
    rcases t with ⟨b, m, cs⟩
    rw [wf_mk_iff] at h
    rw [mem_treePaths_mk, subtreeAt_cons]
    simp only [children_mk]
    rcases hfc : findChild cs u with _ | c
    · constructor
      · rintro (h1 | ⟨⟨k, d⟩, hkc, q', heq, _⟩)
        · exact absurd h1 (List.cons_ne_nil u q)
        · have hk : k = u := by injection heq with h2 _; exact h2.symm
          subst hk
          rw [nodup_findChild h.1 hkc] at hfc
          exact Option.noConfusion hfc
      · intro h1
        simp at h1
    · constructor
      · rintro (h1 | ⟨⟨k, d⟩, hkc, q', heq, hq'⟩)
        · exact absurd h1 (List.cons_ne_nil u q)
        · injection heq with h2 h3
          subst h2 h3
          have hd : d = c := by
            have h4 := nodup_findChild h.1 hkc
            rw [hfc] at h4
            exact (Option.some.inj h4).symm
          subst hd
          exact (ih d (h.2 (u, d) hkc).2).mp hq'
      · intro h1
        refine Or.inr ⟨(u, c), findChild_mem hfc, q, rfl, ?_⟩
        exact (ih c (h.2 (u, c) (findChild_mem hfc)).2).mpr h1

theorem subtreeAt_build_tree_isSome (evolve : σ → String → σ) (init : σ)
    (seqs : List (List String)) (p : List String) (s : List String)
    (hs : s ∈ seqs) (hp : p <+: s) :
    (subtreeAt (build_tree evolve init seqs) p).isSome := by
  have hwf : wf (build_tree evolve init seqs) = true :=
    wf_foldl_ingest evolve seqs _ (wf_fresh_root init)
  rw [← mem_treePaths_iff_subtreeAt p _ hwf, mem_treePaths_build_tree]
  exact Or.inr ⟨s, hs, hp⟩

/-- C7: transpositions are never merged.  When two different move sequences
are ingested into one fresh root and replaying them yields the same board
state (a transposition), the built tree holds two distinct nodes for that
state, one at each move path (node identity is path-based in the embedding):
both paths are occupied, the two nodes carry equal `board`/`state_id`, and
their parents sit at the two (distinct, by `hpar`) parent paths -- as is the
case for every genuine transposition, whose last moves start from different
positions. -/
theorem claim_C7_no_transposition_merge {σ : Type} (evolve : σ → String → σ) (init : σ)
    (s1 s2 : List String) (hpar : s1.dropLast ≠ s2.dropLast)
    (hstate : pathState evolve init s1 = pathState evolve init s2) :
    s1 ≠ s2
  ∧ (∃ n1 n2, subtreeAt (build_tree evolve init [s1, s2]) s1 = some n1
      ∧ subtreeAt (build_tree evolve init [s1, s2]) s2 = some n2
      ∧ n1.board = n2.board
      ∧ n1.board = pathState evolve init s1)
  ∧ (∃ p1 p2, subtreeAt (build_tree evolve init [s1, s2]) s1.dropLast = some p1
      ∧ subtreeAt (build_tree evolve init [s1, s2]) s2.dropLast = some p2) := by
  refine ⟨fun h => hpar (by rw [h]), ?_, ?_⟩
  · have h1 := subtreeAt_build_tree_isSome evolve init [s1, s2] s1 s1 (by simp) List.prefix_rfl
    have h2 := subtreeAt_build_tree_isSome evolve init [s1, s2] s2 s2 (by simp) List.prefix_rfl
    obtain ⟨n1, hn1⟩ := Option.isSome_iff_exists.mp h1
    obtain ⟨n2, hn2⟩ := Option.isSome_iff_exists.mp h2
    refine ⟨n1, n2, hn1, hn2, ?_, boardsOK_build_tree evolve init [s1, s2] s1 n1 hn1⟩
    rw [boardsOK_build_tree evolve init [s1, s2] s1 n1 hn1,
      boardsOK_build_tree evolve init [s1, s2] s2 n2 hn2]
    exact hstate
  · have h1 := subtreeAt_build_tree_isSome evolve init [s1, s2] s1.dropLast s1 (by simp)
      (List.dropLast_prefix s1)
    have h2 := subtreeAt_build_tree_isSome evolve init [s1, s2] s2.dropLast s2 (by simp)
      (List.dropLast_prefix s2)
    obtain ⟨p1, hp1⟩ := Option.isSome_iff_exists.mp h1
    obtain ⟨p2, hp2⟩ := Option.isSome_iff_exists.mp h2
    exact ⟨p1, p2, hp1, hp2⟩

/-- Witness for C7 at a concrete transposition: with states as move-count
multisets (encoded in a number), the move paths ["a", "b"] and ["b", "a"]
reach the same state 11 from 0, their parent paths ["a"] and ["b"] differ,
and the theorem produces two path-distinct nodes of equal board. -/
theorem claim_C7_witness :
    (["a", "b"] : List String).dropLast ≠ (["b", "a"] : List String).dropLast
  ∧ pathState (fun n u => n + (if u = "a" then 1 else 10)) (0 : Nat) ["a", "b"]
      = pathState (fun n u => n + (if u = "a" then 1 else 10)) (0 : Nat) ["b", "a"]
  ∧ ((["a", "b"] : List String) ≠ ["b", "a"]
      ∧ (∃ n1 n2, subtreeAt (build_tree (fun n u => n + (if u = "a" then 1 else 10)) (0 : Nat)
            [["a", "b"], ["b", "a"]]) ["a", "b"] = some n1
          ∧ subtreeAt (build_tree (fun n u => n + (if u = "a" then 1 else 10)) (0 : Nat)
            [["a", "b"], ["b", "a"]]) ["b", "a"] = some n2
          ∧ n1.board = n2.board
          ∧ n1.board = pathState (fun n u => n + (if u = "a" then 1 else 10)) (0 : Nat) ["a", "b"])
      ∧ (∃ p1 p2, subtreeAt (build_tree (fun n u => n + (if u = "a" then 1 else 10)) (0 : Nat)
            [["a", "b"], ["b", "a"]]) (["a", "b"] : List String).dropLast = some p1
          ∧ subtreeAt (build_tree (fun n u => n + (if u = "a" then 1 else 10)) (0 : Nat)
            [["a", "b"], ["b", "a"]]) (["b", "a"] : List String).dropLast = some p2)) :=
  ⟨by decide, rfl,
   claim_C7_no_transposition_merge (fun n u => n + (if u = "a" then 1 else 10)) 0
     ["a", "b"] ["b", "a"] (by decide) rfl⟩

theorem add_child_move (evolve : σ → String → σ) (t : MoveNode σ) (u : String) :
    (add_child evolve t u).move = t.move := by
  rcases t with ⟨b, m, cs⟩
  simp only [add_child]
  split <;> rfl

theorem wf_add_child (evolve : σ → String → σ) (t : MoveNode σ) (u : String)
    (h : wf t = true) : wf (add_child evolve t u) = true := by
  rcases t with ⟨b, m, cs⟩
  simp only [add_child]
  split
  · exact h
  · rename_i hns
    rw [wf_mk_iff] at h ⊢
    obtain ⟨hnodup, hkids⟩ := h
    have hnone : findChild cs u = none := by
      rcases hfc : findChild cs u with _ | c
      · rfl
      · rw [hfc] at hns
        simp at hns
    constructor
    · rw [List.map_append]
      simp only [List.map_cons, List.map_nil]
      rw [List.nodup_append]
      refine ⟨hnodup, List.nodup_singleton u, ?_⟩
      intro v hv hv'
      simp at hv'
      subst hv'
      exact (findChild_eq_none_iff cs v).mp hnone hv
    · intro kc hkc
      rcases List.mem_append.mp hkc with h1 | h1
      · exact hkids kc h1
      · have h2 : kc = (u, MoveNode.mk (evolve b u) (some u) []) := by simpa using h1
        subst h2
        exact ⟨rfl, by rw [wf_mk_iff]; simp⟩

theorem prune_forest_keys (cs : List (String × MoveNode σ)) :
    (prune_forest cs).map Prod.fst = cs.map Prod.fst := by
  rw [prune_forest_eq_map, List.map_map]
  rfl

theorem wf_prune (t : MoveNode σ) : wf t = true → wf (prune_end_nodes t) = true := by
  induction t using inductionOn with
  | step b m cs ih =>
    intro h
    rw [wf_mk_iff] at h
    rw [prune_mk]
    split
    · rw [wf_mk_iff]
      simp
    · rw [wf_mk_iff]
      constructor
      · rw [prune_forest_keys]
        exact h.1
      · intro kc hkc
        rw [prune_forest_eq_map] at hkc
        obtain ⟨⟨k, c⟩, hk, rfl⟩ := List.mem_map.mp hkc
        refine ⟨?_, ih (k, c) hk (h.2 (k, c) hk).2⟩
        rw [prune_move]
        exact (h.2 (k, c) hk).1

theorem wf_subtreeAt (p : List String) :
    ∀ (t s : MoveNode σ), wf t = true → subtreeAt t p = some s → wf s = true := by
  induction p with
  | nil =>
    intro t s ht h
    simp at h
    subst h
    exact ht
  | cons u q ih =>
    intro t s ht h
    rw [subtreeAt_cons] at h
    rcases hfc : findChild t.children u with _ | c
    · rw [hfc] at h
      simp at h
    · rw [hfc] at h
      rcases t with ⟨b, m, cs⟩
      have hc : wf c = true :=
        (((wf_mk_iff b m cs).mp ht).2 (u, c) (findChild_mem (by simpa using hfc))).2
      exact ih c s hc h

theorem move_subtreeAt_append (t : MoveNode σ) (p : List String) (u : String)
    (s' : MoveNode σ) (hwf : wf t = true) (h : subtreeAt t (p ++ [u]) = some s') :
    s'.move = some u := by
  obtain ⟨par, hpar, hfind⟩ := subtreeAt_append_singleton p t s' u h
  have hwfp : wf par = true := wf_subtreeAt p t par hwf hpar
  rcases par with ⟨b, m, cs⟩
  rw [wf_mk_iff] at hwfp
  exact (hwfp.2 (u, s') (findChild_mem (by simpa using hfind))).1

theorem unique_root (t : MoveNode σ) (hwf : wf t = true) (hm : t.move = none)
    (p : List String) (s' : MoveNode σ) (h : subtreeAt t p = some s') :
    s'.move = none ↔ p = [] := by
  constructor
  · intro hmove
    by_contra hne
    rcases List.eq_nil_or_concat' p with rfl | ⟨L, v, rfl⟩
    · exact hne rfl
    · have h2 := move_subtreeAt_append t L v s' hwf h
      rw [hmove] at h2
      exact Option.noConfusion h2
  · rintro rfl
    simp at h
    subst h
    exact hm

/-- C8: the rooted-tree invariant is preserved by building (`add_child`,
sequence ingestion) and by pruning: the dict keys stay pairwise distinct and
every child's `move` field stays equal to its key (`wf`), the root keeps its
`move` (so it keeps `move = none`: exactly one root), under a `none`-move root
a node has `move = none` exactly at the empty path (root uniqueness), the list
of node paths is duplicate-free (every node is addressed by exactly one path,
hence has exactly one parent: the node at the path minus its last key), and
the ancestor order on occupied paths (the prefix order) is antisymmetric, so
no node is a proper ancestor of itself; cycles cannot arise, child links being
containment in this embedding. -/
theorem claim_C8_tree_invariants {σ : Type} (evolve : σ → String → σ) (t : MoveNode σ)
    (u : String) (s : List String) (hwf : wf t = true) :
    wf (add_child evolve t u) = true
  ∧ wf (ingest evolve t s) = true
  ∧ wf (prune_end_nodes t) = true
  ∧ (add_child evolve t u).move = t.move
  ∧ (ingest evolve t s).move = t.move
  ∧ (prune_end_nodes t).move = t.move
  ∧ (treePaths (ingest evolve t s)).Nodup
  ∧ (treePaths (prune_end_nodes t)).Nodup
  ∧ (t.move = none → ∀ p s', subtreeAt (ingest evolve t s) p = some s' →
      (s'.move = none ↔ p = []))
  ∧ (t.move = none → ∀ p s', subtreeAt (prune_end_nodes t) p = some s' →
      (s'.move = none ↔ p = []))
  ∧ (∀ p q, p ∈ treePaths t → q ∈ treePaths t → p <+: q → q <+: p → p = q) :=
  ⟨wf_add_child evolve t u hwf,
   wf_ingest evolve s t hwf,
   wf_prune t hwf,
   add_child_move evolve t u,
   ingest_move evolve s t,
   prune_move t,
   treePaths_nodup _ (wf_ingest evolve s t hwf),
   treePaths_nodup _ (wf_prune t hwf),
   fun hm p s' hp =>
     unique_root _ (wf_ingest evolve s t hwf) (by rw [ingest_move]; exact hm) p s' hp,
   fun hm p s' hp =>
     unique_root _ (wf_prune t hwf) (by rw [prune_move]; exact hm) p s' hp,
   fun p q _ _ h1 h2 => h1.eq_of_length (Nat.le_antisymm h1.length_le h2.length_le)⟩

/-- Witness for C8 at a concrete input: a well-formed two-node tree stays
well-formed under `add_child`, ingestion and pruning, with duplicate-free
node paths. -/
theorem claim_C8_witness :
    wf (MoveNode.mk 0 none [("a", MoveNode.mk 1 (some "a") [])] : MoveNode Nat) = true
  ∧ wf (add_child (fun n _ => n + 1)
      (MoveNode.mk 0 none [("a", MoveNode.mk 1 (some "a") [])]) "b") = true
  ∧ wf (prune_end_nodes (MoveNode.mk 0 none [("a", MoveNode.mk 1 (some "a") [])] :
      MoveNode Nat)) = true
  ∧ (treePaths (ingest (fun n _ => n + 1)
      (MoveNode.mk 0 none [("a", MoveNode.mk 1 (some "a") [])]) ["a", "c"])).Nodup :=
  ⟨rfl,
   (claim_C8_tree_invariants (fun n _ => n + 1)
     (MoveNode.mk 0 none [("a", MoveNode.mk 1 (some "a") [])]) "b" ["a", "c"] rfl).1,
   (claim_C8_tree_invariants (fun n _ => n + 1)
     (MoveNode.mk 0 none [("a", MoveNode.mk 1 (some "a") [])]) "b" ["a", "c"] rfl).2.2.1,
   (claim_C8_tree_invariants (fun n _ => n + 1)
     (MoveNode.mk 0 none [("a", MoveNode.mk 1 (some "a") [])]) "b" ["a", "c"] rfl).2.2.2.2.2.2.1⟩

end MoveNode
